import Mathlib

/-!
Verification development for the pdf-reader repository (src/server.ts).

The TypeScript source is shallowly embedded: strings are `List Char`
(wrapped into `String` at the interface), JS string lengths are counted in
UTF-16 code units, regex-based replacement steps of `cleanText` are modelled
as explicit list transformations, and the stateful `/api/tts` handler is
modelled as a pure function over an explicit filesystem state, with the
external `edge-tts` invocation abstracted as a behaviour parameter.
-/

/-! ## Character classes (JS regex semantics) -/

/-- JS regex `\s` (WhiteSpace and LineTerminator code points), as used by
`String.prototype.trim`, `\s+` and the split separator of the source. -/
def isJsWs (c : Char) : Bool :=
  let n := c.toNat
  n == 32 || n == 9 || n == 10 || n == 11 || n == 12 || n == 13 ||
  n == 0xa0 || n == 0x1680 || (0x2000 ≤ n && n ≤ 0x200a) ||
  n == 0x2028 || n == 0x2029 || n == 0x202f || n == 0x205f ||
  n == 0x3000 || n == 0xfeff

/-- Sentence-ending punctuation of the split regex `(?<=[.!?])\s+`. -/
def isPunctC (c : Char) : Bool :=
  c == '.' || c == '!' || c == '?'

/-- JS regex `\d`, i.e. the ASCII digits. -/
def isDigitC (c : Char) : Bool :=
  48 ≤ c.toNat && c.toNat ≤ 57

/-- The characters kept by the voice sanitiser `replace(/[^a-zA-Z0-9]/g, '')`. -/
def isAlnumC (c : Char) : Bool :=
  (48 ≤ c.toNat && c.toNat ≤ 57) || (65 ≤ c.toNat && c.toNat ≤ 90) ||
  (97 ≤ c.toNat && c.toNat ≤ 122)

/-- Hexadecimal digit, for the `0x` case of `parseInt`. -/
def isHexDigitC (c : Char) : Bool :=
  isDigitC c || (65 ≤ c.toNat && c.toNat ≤ 70) || (97 ≤ c.toNat && c.toNat ≤ 102)

/-- Characters removed by `replace(/[\x00-\x08\x0b\x0c\x0e-\x1f\x7f-\x9f]/g, '')`
(note `\t`, `\n`, `\r` are kept). -/
def isRemovedCtrl (c : Char) : Bool :=
  let n := c.toNat
  n ≤ 8 || n == 11 || n == 12 || (14 ≤ n && n ≤ 31) || (127 ≤ n && n ≤ 159)

/-- UTF-16 code-unit width of a code point: JS `String.prototype.length`
counts characters outside the BMP twice. -/
def charWidth (c : Char) : Nat :=
  if c.toNat < 0x10000 then 1 else 2

/-- JS string length (UTF-16 code units) of a list of code points. -/
def jsLenL (l : List Char) : Nat :=
  (l.map charWidth).sum

/-- JS string length of a `String`. -/
def jsLen (s : String) : Nat :=
  jsLenL s.data

/-! ## `cleanText` (src/server.ts lines 119-130) -/

/-- `replace(/[‘’]/g, "'")`. -/
def mapSQuote (c : Char) : Char :=
  if c = '‘' || c = '’' then '\'' else c

/-- `replace(/[“”]/g, '"')`. -/
def mapDQuote (c : Char) : Char :=
  if c = '“' || c = '”' then '\"' else c

/-- `replace(/[–—]/g, '-')`. -/
def mapDash (c : Char) : Char :=
  if c = '–' || c = '—' then '-' else c

/-- `replace(/…/g, '...')`: the ellipsis glyph expands to three periods. -/
def expandEllipsis (l : List Char) : List Char :=
  (l.map (fun c => if c = '…' then ['.', '.', '.'] else [c])).flatten

/-- Worker for `replace(/\s+/g, ' ')`: each maximal whitespace run becomes a
single space.  The boolean records whether we are inside a run whose first
character has already been emitted as `' '`. -/
def collapseGo : List Char → Bool → List Char
  | [], _ => []
  | c :: rest, inRun =>
    if isJsWs c then
      if inRun then collapseGo rest true else ' ' :: collapseGo rest true
    else c :: collapseGo rest false

/-- `replace(/\s+/g, ' ')`. -/
def collapseWs (l : List Char) : List Char :=
  collapseGo l false

/-- `replace(/^\d+\s*$/gm, '')`, as it behaves at its position in the
`cleanText` chain: the preceding `replace(/\s+/g, ' ')` has removed every
line terminator, so the multiline anchors `^`/`$` can only match at the
ends of the whole string, and the regex matches exactly when the whole
string is one or more digits followed by whitespace only. -/
def removeDigitLine (l : List Char) : List Char :=
  if l.takeWhile isDigitC = [] then l
  else if (l.dropWhile isDigitC).all isJsWs then [] else l

/-- JS `String.prototype.trim` on a list of code points. -/
def trimL (l : List Char) : List Char :=
  ((l.dropWhile isJsWs).reverse.dropWhile isJsWs).reverse

/-- JS trim on a `String`. -/
def jsTrim (s : String) : String :=
  ⟨trimL s.data⟩

/-- The `cleanText` chain on a list of code points, replicating the order of
the `replace` calls in the source. -/
def cleanL (l : List Char) : List Char :=
  trimL (removeDigitLine (collapseWs (expandEllipsis
    (((l.filter (fun c => !isRemovedCtrl c)).map mapSQuote).map mapDQuote |>.map mapDash))))

/-- `cleanText` (src/server.ts lines 119-130).  The `if (!text) return ''`
guard of the source is subsumed: every step maps `[]` to `[]`. -/
def cleanText (s : String) : String :=
  ⟨cleanL s.data⟩

/-! ## `splitIntoChunks` (src/server.ts lines 133-148) -/

/-- Whether the previous consumed character (head of the reversed
accumulator) is sentence-ending punctuation; this is the lookbehind
`(?<=[.!?])` of the split regex. -/
def isPunctHead (acc : List Char) : Bool :=
  match acc.head? with
  | some p => isPunctC p
  | none => false

/-- `text.split(/(?<=[.!?])\s+/)`: a separator is a maximal whitespace run
whose preceding character is `.`, `!` or `?`.  `acc` is the reversed current
sentence; the boolean is true while consuming a separator run. -/
def sGo : List Char → List Char → Bool → List (List Char)
  | [], acc, false => [acc.reverse]
  | [], _, true => [[]]
  | c :: rest, acc, false =>
    if isJsWs c && isPunctHead acc then acc.reverse :: sGo rest [] true
    else sGo rest (c :: acc) false
  | c :: rest, acc, true =>
    if isJsWs c then sGo rest acc true
    else sGo rest [c] false

/-- The sentence list of `splitIntoChunks` on a list of code points. -/
def splitSentencesL (l : List Char) : List (List Char) :=
  sGo l [] false

/-- The sentence split at the `String` interface. -/
def splitSentences (s : String) : List String :=
  (splitSentencesL s.data).map (fun l => ⟨l⟩)

/-- The accumulation loop of `splitIntoChunks`: `current` is the JS
accumulator string, `chunks` the output array. -/
def chunksGo (maxChars : Nat) : List (List Char) → List Char → List (List Char) → List (List Char)
  | [], current, chunks =>
    if trimL current = [] then chunks else chunks ++ [trimL current]
  | s :: rest, current, chunks =>
    if jsLenL (current ++ s) < maxChars then
      chunksGo maxChars rest (current ++ s ++ [' ']) chunks
    else
      chunksGo maxChars rest (s ++ [' '])
        (if current = [] then chunks else chunks ++ [trimL current])

/-- `splitIntoChunks` on a list of code points. -/
def splitChunksL (maxChars : Nat) (l : List Char) : List (List Char) :=
  chunksGo maxChars (splitSentencesL l) [] []

/-- `splitIntoChunks` (src/server.ts lines 133-148). -/
def splitIntoChunks (text : String) (maxChars : Nat) : List String :=
  (splitChunksL maxChars text.data).map (fun l => ⟨l⟩)

/-- Joining a list of code-point lists with single spaces. -/
def joinSpL : List (List Char) → List Char
  | [] => []
  | [s] => s
  | s :: t :: rest => s ++ ' ' :: joinSpL (t :: rest)

/-- Joining chunks with single spaces at the `String` interface. -/
def joinSpace (cs : List String) : String :=
  ⟨joinSpL (cs.map String.data)⟩

/-! ## Decimal rendering (JS template `${index}`) -/

/-- The decimal digit character for a residue `r < 10` (catch-all `'0'`). -/
def digitChar10 (r : Nat) : Char :=
  if r = 0 then '0' else if r = 1 then '1' else if r = 2 then '2'
  else if r = 3 then '3' else if r = 4 then '4' else if r = 5 then '5'
  else if r = 6 then '6' else if r = 7 then '7' else if r = 8 then '8'
  else if r = 9 then '9' else '0'

/-- Fuelled digit accumulation; with fuel at least `n` this renders `n` in
decimal, most significant digit first, in front of `acc`. -/
def natCharsAux : Nat → Nat → List Char → List Char
  | 0, n, acc => digitChar10 (n % 10) :: acc
  | fuel + 1, n, acc =>
    if n < 10 then digitChar10 (n % 10) :: acc
    else natCharsAux fuel (n / 10) (digitChar10 (n % 10) :: acc)

/-- Canonical decimal rendering of a natural number, as JS `${n}` prints a
non-negative integer. -/
def natChars (n : Nat) : List Char :=
  natCharsAux n n []

/-- Decimal value of a digit list (inverse of `natChars`). -/
def val10 (l : List Char) : Nat :=
  l.foldl (fun a c => 10 * a + (c.toNat - 48)) 0

/-! ## `parseInt` (JS, radix unspecified) -/

/-- Decimal magnitude: maximal leading ASCII-digit run; no digits is `NaN`. -/
def decMagnitude (l : List Char) : Option Nat :=
  if l.takeWhile isDigitC = [] then none else some (val10 (l.takeWhile isDigitC))

/-- Value of one hex digit. -/
def hexDigitVal (c : Char) : Nat :=
  if isDigitC c then c.toNat - 48
  else if c.toNat ≤ 90 then c.toNat - 55 else c.toNat - 87

/-- Hexadecimal magnitude after a `0x` marker. -/
def hexMagnitude (l : List Char) : Option Nat :=
  if l.takeWhile isHexDigitC = [] then none
  else some ((l.takeWhile isHexDigitC).foldl (fun a c => 16 * a + hexDigitVal c) 0)

/-- Magnitude part of `parseInt` with unspecified radix: `0x`/`0X` selects
hexadecimal, otherwise decimal. -/
def parseIntCore : List Char → Option Nat
  | '0' :: 'x' :: rest => hexMagnitude rest
  | '0' :: 'X' :: rest => hexMagnitude rest
  | l => decMagnitude l

/-- Sign handling of `parseInt` after skipping leading whitespace. -/
def parseIntSigned : List Char → Option Int
  | '-' :: rest => (parseIntCore rest).map (fun n => -(n : Int))
  | '+' :: rest => (parseIntCore rest).map (fun n => (n : Int))
  | l => (parseIntCore l).map (fun n => (n : Int))

/-- JS `parseInt(s)`; `none` models `NaN`. -/
def jsParseInt (s : String) : Option Int :=
  parseIntSigned (s.data.dropWhile isJsWs)

/-! ## JS numeric comparisons with NaN -/

/-- JS `x < b` where `x` may be `NaN` (`none`): any comparison with NaN is
false. -/
def jsLtNum (a : Option Int) (b : Int) : Bool :=
  match a with
  | none => false
  | some x => decide (x < b)

/-- JS `x >= b` where `x` may be `NaN`. -/
def jsGeNum (a : Option Int) (b : Int) : Bool :=
  match a with
  | none => false
  | some x => decide (b ≤ x)

/-- JS array indexing `chunks[index]` with a possibly-NaN index; `none`
models `undefined`. -/
def jsGet (chunks : List String) (idx : Option Int) : Option String :=
  match idx with
  | none => none
  | some i => if i < 0 then none else chunks[i.toNat]?

/-- The non-negative integer value of a guarded index (only used after the
range guard has established `0 ≤ i`). -/
def idxToNat : Option Int → Nat
  | some (Int.ofNat n) => n
  | _ => 0

/-! ## Server state and the TTS handlers (src/server.ts lines 58, 83-106, 251-361) -/

/-- The per-document record; only the field the verified claims depend on is
kept (`filename`, `totalPages`, `totalChars`, `uploadedAt` are informational
and never read by the modelled handlers). -/
structure PDFData where
  chunks : List String
deriving DecidableEq

/-- An audio artifact on disk, tagged with the synthesis parameters that
produced it and whether the external tool ran to completion. -/
structure Artifact where
  text : String
  voice : String
  rate : String
  complete : Bool
deriving DecidableEq

/-- The audio directory, as an association from file name to artifact
(most recent first). -/
abbrev Fs := List (String × Artifact)

/-- Association-list lookup keyed by strings (the in-memory `pdfStore` Map
and `fs.existsSync` on the audio directory). -/
def slookup {β : Type} : List (String × β) → String → Option β
  | [], _ => none
  | (k, v) :: rest, q => if k = q then some v else slookup rest q

/-- Behaviour of one invocation of the external `edge-tts` process: it either
succeeds, or fails (non-zero exit or the 120 s timeout kill), in which case
`leavesFile` records whether it had already created the output file. -/
inductive SynthBeh where
  | ok : SynthBeh
  | failed (leavesFile : Bool) : SynthBeh
deriving DecidableEq

/-- `generateTTS` (src/server.ts lines 83-106): the external tool writes
directly to `outputPath`; the orchestrator performs no write-then-rename and
no cleanup of `outputPath` on failure (its `finally` only removes the
temporary text input file, which has no lasting effect on the store).
Returns the success flag and the resulting audio directory. -/
def generateTTSM (beh : SynthBeh) (text voice rate outPath : String) (fs : Fs) : Bool × Fs :=
  match beh with
  | SynthBeh.ok => (true, (outPath, ⟨text, voice, rate, true⟩) :: fs)
  | SynthBeh.failed b =>
    (false, if b then (outPath, ⟨text, voice, rate, false⟩) :: fs else fs)

/-- `voice.replace(/[^a-zA-Z0-9]/g, '')`. -/
def sanitizeVoice (v : String) : String :=
  ⟨v.data.filter isAlnumC⟩

/-- The separator `_chunk_` of the cache file name. -/
def chunkSep : List Char :=
  ['_', 'c', 'h', 'u', 'n', 'k', '_']

/-- The `.mp3` suffix of the cache file name. -/
def mp3Suffix : List Char :=
  ['.', 'm', 'p', '3']

/-- The cache key to file name derivation on lists of code points. -/
def audioFilenameL (pdfId : List Char) (idx : Nat) (voice : List Char) : List Char :=
  pdfId ++ chunkSep ++ natChars idx ++ ['_'] ++ voice.filter isAlnumC ++ mp3Suffix

/-- The cache file name
`` `${pdfId}_chunk_${index}_${voice.replace(/[^a-zA-Z0-9]/g, '')}.mp3` ``
(src/server.ts lines 284-288); the artifact path is this name joined under
the fixed audio directory, so file names and paths are in bijection. -/
def audioFilename (pdfId : String) (idx : Nat) (voice : String) : String :=
  ⟨audioFilenameL pdfId.data idx voice.data⟩

/-- Result of the `POST /api/tts` handler: HTTP status, error message,
`cached` flag and `audioUrl` of the JSON body, the number of `generateTTS`
invocations performed, and the audio directory afterwards. -/
structure TtsResult where
  status : Nat
  error : Option String
  cached : Option Bool
  audioUrl : Option String
  synthCalls : Nat
  files : Fs
deriving DecidableEq

/-- `POST /api/tts` (src/server.ts lines 263-329).  `chunkIndexStr` is the
raw `chunkIndex` of the request body, parsed with `parseInt` as in the
source; when the parse yields NaN the range guard passes (both comparisons
are false) and the later `text.length` access on `undefined` throws, which
the surrounding `try`/`catch` converts to a 500 response. -/
def postTts (beh : SynthBeh) (fs : Fs) (store : List (String × PDFData))
    (pdfId chunkIndexStr voice rate : String) : TtsResult :=
  match slookup store pdfId with
  | none => ⟨404, some "PDF not found", none, none, 0, fs⟩
  | some pdf =>
    let idx := jsParseInt chunkIndexStr
    if jsLtNum idx 0 || jsGeNum idx (pdf.chunks.length : Int) then
      ⟨400, some "Invalid chunk index", none, none, 0, fs⟩
    else
      match jsGet pdf.chunks idx with
      | none => ⟨500, some "Cannot read properties of undefined", none, none, 0, fs⟩
      | some text =>
        if jsLen text < 10 then ⟨400, some "Chunk too short", none, none, 0, fs⟩
        else
          let fname := audioFilename pdfId (idxToNat idx) voice
          if (slookup fs fname).isSome then
            ⟨200, none, some true, some ("/audio/" ++ fname), 0, fs⟩
          else
            match generateTTSM beh text voice rate fname fs with
            | (true, fs2) => ⟨200, none, some false, some ("/audio/" ++ fname), 1, fs2⟩
            | (false, fs2) => ⟨500, some "synthesis failed", none, none, 1, fs2⟩

/-- Result of `GET /api/pdf/:pdfId/chunk/:chunkIndex`: status, error, and the
`text` field of the JSON body (`none` both for error responses and for the
`undefined` produced by a NaN index). -/
structure ChunkResult where
  status : Nat
  error : Option String
  text : Option String
deriving DecidableEq

/-- `GET /api/pdf/:pdfId/chunk/:chunkIndex` (src/server.ts lines 251-261). -/
def getChunk (store : List (String × PDFData)) (pdfId chunkIndexStr : String) : ChunkResult :=
  match slookup store pdfId with
  | none => ⟨404, some "PDF not found", none⟩
  | some pdf =>
    let idx := jsParseInt chunkIndexStr
    if jsLtNum idx 0 || jsGeNum idx (pdf.chunks.length : Int) then
      ⟨400, some "Invalid chunk index", none⟩
    else
      ⟨200, none, jsGet pdf.chunks idx⟩

/-- Result of `POST /api/tts/custom`. -/
structure CustomResult where
  status : Nat
  error : Option String
  audioUrl : Option String
  synthCalls : Nat
  files : Fs
deriving DecidableEq

/-- `POST /api/tts/custom` (src/server.ts lines 344-361); `nowId` stands for
the `Date.now()` timestamp used in the ad-hoc file name. -/
def postTtsCustom (beh : SynthBeh) (nowId : String) (fs : Fs)
    (text voice rate : String) : CustomResult :=
  if text = "" ∨ jsLen text < 2 then ⟨400, some "Text required", none, 0, fs⟩
  else
    let fname := "custom_" ++ nowId ++ ".mp3"
    match generateTTSM beh (cleanText text) voice rate fname fs with
    | (true, fs2) => ⟨200, none, some ("/audio/" ++ fname), 1, fs2⟩
    | (false, fs2) => ⟨500, some "synthesis failed", none, 1, fs2⟩

/-! ## Auxiliary notions for the chunking proofs -/

/-- Gluing two texts with a single space, dropping the separator when either
side is empty; `joinSpL` of a concatenation of groups computes by `glue`. -/
def glue (a b : List Char) : List Char :=
  if a = [] then b else if b = [] then a else a ++ ' ' :: b

/-- Two adjacent characters are not both whitespace. -/
def NoWsPair (a b : Char) : Prop :=
  ¬(isJsWs a = true ∧ isJsWs b = true)

/-- The shape of `cleanText` output: every whitespace character is a plain
space, no two adjacent whitespace characters, and no leading or trailing
whitespace. -/
def NormedL (l : List Char) : Prop :=
  (∀ c ∈ l, isJsWs c = true → c = ' ') ∧ List.Chain' NoWsPair l ∧
  (∀ c, l.head? = some c → isJsWs c = false) ∧
  (∀ c, l.getLast? = some c → isJsWs c = false)

/-- A sentence produced by splitting normalized text: non-empty with
non-whitespace first and last characters. -/
def CleanSent (s : List Char) : Prop :=
  s ≠ [] ∧ (∀ c, s.head? = some c → isJsWs c = false) ∧
  (∀ c, s.getLast? = some c → isJsWs c = false)

/-- Invariant of the `splitIntoChunks` accumulator on normalized input: it is
empty or a clean sentence group followed by the trailing space the loop
appends. -/
def ShapeCur (cur : List Char) : Prop :=
  cur = [] ∨ ∃ j, cur = j ++ [' '] ∧ CleanSent j

/-! ## Claim theorems: server handlers -/

/-- C3: for every document, chunk index and voice, a first `POST /api/tts`
call whose key has no artifact yet returns `cached = false` after one
synthesis invocation, and a second call with the identical key returns
`cached = true`, reports the same artifact path, and performs no further
synthesis invocation. -/
theorem C3_idempotent_cache (fs : Fs) (store : List (String × PDFData))
    (pdfId s voice rate : String) (pdf : PDFData) (i : Int) (text : String)
    (hfind : slookup store pdfId = some pdf)
    (hparse : jsParseInt s = some i)
    (h0 : 0 ≤ i) (hlt : i < (pdf.chunks.length : Int))
    (hget : jsGet pdf.chunks (some i) = some text)
    (hmin : 10 ≤ jsLen text)
    (hmiss : slookup fs (audioFilename pdfId (idxToNat (some i)) voice) = none) :
    postTts SynthBeh.ok fs store pdfId s voice rate =
      ⟨200, none, some false,
        some ("/audio/" ++ audioFilename pdfId (idxToNat (some i)) voice), 1,
        (audioFilename pdfId (idxToNat (some i)) voice, ⟨text, voice, rate, true⟩) :: fs⟩ ∧
    postTts SynthBeh.ok
        ((audioFilename pdfId (idxToNat (some i)) voice, ⟨text, voice, rate, true⟩) :: fs)
        store pdfId s voice rate =
      ⟨200, none, some true,
        some ("/audio/" ++ audioFilename pdfId (idxToNat (some i)) voice), 0,
        (audioFilename pdfId (idxToNat (some i)) voice, ⟨text, voice, rate, true⟩) :: fs⟩ := by
  have hlt1 : jsLtNum (some i) 0 = false := by
    simp only [jsLtNum, decide_eq_false_iff_not]
    omega
  have hge1 : jsGeNum (some i) (pdf.chunks.length : Int) = false := by
    simp only [jsGeNum, decide_eq_false_iff_not]
    omega
  have hmin1 : ¬ jsLen text < 10 := Nat.not_lt.2 hmin
  constructor
  · simp [postTts, hfind, hparse, hlt1, hge1, hget, hmin1, hmiss, generateTTSM]
  · simp [postTts, hfind, hparse, hlt1, hge1, hget, hmin1, slookup, generateTTSM]

/-- Witness for C3 at a concrete store, document and chunk. -/
theorem C3_idempotent_cache_witness :
    slookup ([] : Fs) (audioFilename "doc1" (idxToNat (some 0)) "en-US-AriaNeural") = none ∧
    (postTts SynthBeh.ok [] [("doc1", ⟨["Hello this is a test chunk text."]⟩)]
        "doc1" "0" "en-US-AriaNeural" "+0%" =
      ⟨200, none, some false,
        some ("/audio/" ++ audioFilename "doc1" (idxToNat (some 0)) "en-US-AriaNeural"), 1,
        [(audioFilename "doc1" (idxToNat (some 0)) "en-US-AriaNeural",
          ⟨"Hello this is a test chunk text.", "en-US-AriaNeural", "+0%", true⟩)]⟩ ∧
    postTts SynthBeh.ok
        [(audioFilename "doc1" (idxToNat (some 0)) "en-US-AriaNeural",
          ⟨"Hello this is a test chunk text.", "en-US-AriaNeural", "+0%", true⟩)]
        [("doc1", ⟨["Hello this is a test chunk text."]⟩)]
        "doc1" "0" "en-US-AriaNeural" "+0%" =
      ⟨200, none, some true,
        some ("/audio/" ++ audioFilename "doc1" (idxToNat (some 0)) "en-US-AriaNeural"), 0,
        [(audioFilename "doc1" (idxToNat (some 0)) "en-US-AriaNeural",
          ⟨"Hello this is a test chunk text.", "en-US-AriaNeural", "+0%", true⟩)]⟩) :=
  ⟨by decide,
    C3_idempotent_cache [] [("doc1", ⟨["Hello this is a test chunk text."]⟩)]
      "doc1" "0" "en-US-AriaNeural" "+0%" ⟨["Hello this is a test chunk text."]⟩ 0
      "Hello this is a test chunk text."
      (by decide) (by decide) (by decide) (by decide) (by decide) (by decide) (by decide)⟩

/-- C4 counterexample: when the external synthesis invocation fails after
having already created the output file (e.g. killed by the timeout
mid-write), a file does exist afterwards at the canonical cache path — the
orchestrator removes nothing at the destination — and a subsequent call for
the same key reports it as cached. -/
theorem C4_counterexample :
    (generateTTSM (SynthBeh.failed true) "Hello this is a test chunk text."
        "en-US-AriaNeural" "+0%" (audioFilename "doc1" 0 "en-US-AriaNeural") []).1 = false ∧
    slookup (generateTTSM (SynthBeh.failed true) "Hello this is a test chunk text."
        "en-US-AriaNeural" "+0%" (audioFilename "doc1" 0 "en-US-AriaNeural") []).2
      (audioFilename "doc1" 0 "en-US-AriaNeural") =
      some ⟨"Hello this is a test chunk text.", "en-US-AriaNeural", "+0%", false⟩ ∧
    (postTts SynthBeh.ok
        (generateTTSM (SynthBeh.failed true) "Hello this is a test chunk text."
          "en-US-AriaNeural" "+0%" (audioFilename "doc1" 0 "en-US-AriaNeural") []).2
        [("doc1", ⟨["Hello this is a test chunk text."]⟩)]
        "doc1" "0" "en-US-AriaNeural" "+0%").cached = some true :=
  ⟨rfl, by decide, by decide⟩

/-- C4 amended: on a failed external invocation the orchestrator itself
neither writes nor cleans the canonical cache path; if the external tool did
not create the file, no file exists there afterwards and a lookup reports
absence, while if the tool had already created the file, the incomplete
artifact remains at the canonical path. -/
theorem C4_amended (text voice rate outPath : String) (fs : Fs)
    (habs : slookup fs outPath = none) :
    (generateTTSM (SynthBeh.failed false) text voice rate outPath fs).1 = false ∧
    slookup (generateTTSM (SynthBeh.failed false) text voice rate outPath fs).2 outPath = none ∧
    (generateTTSM (SynthBeh.failed true) text voice rate outPath fs).1 = false ∧
    slookup (generateTTSM (SynthBeh.failed true) text voice rate outPath fs).2 outPath =
      some ⟨text, voice, rate, false⟩ :=
  ⟨rfl, by simpa [generateTTSM] using habs, rfl, by simp [generateTTSM, slookup]⟩

/-- Witness for the amended C4 at a concrete request. -/
theorem C4_amended_witness :
    slookup ([] : Fs) "out.mp3" = none ∧
    ((generateTTSM (SynthBeh.failed false) "Some chunk text here." "v" "+0%" "out.mp3" []).1 = false ∧
    slookup (generateTTSM (SynthBeh.failed false) "Some chunk text here." "v" "+0%" "out.mp3" []).2
      "out.mp3" = none ∧
    (generateTTSM (SynthBeh.failed true) "Some chunk text here." "v" "+0%" "out.mp3" []).1 = false ∧
    slookup (generateTTSM (SynthBeh.failed true) "Some chunk text here." "v" "+0%" "out.mp3" []).2
      "out.mp3" = some ⟨"Some chunk text here.", "v", "+0%", false⟩) :=
  ⟨by decide, C4_amended "Some chunk text here." "v" "+0%" "out.mp3" [] (by decide)⟩

/-- C5: the cache file name is derived from `(documentId, chunkIndex,
voiceId)` only; two calls that differ only in rate resolve to the same
artifact path, so the second returns the artifact synthesized at the first
call's rate, cached, without invoking synthesis again. -/
theorem C5_rate_not_in_key (fs : Fs) (store : List (String × PDFData))
    (pdfId s voice rate1 rate2 : String) (pdf : PDFData) (i : Int) (text : String)
    (hfind : slookup store pdfId = some pdf)
    (hparse : jsParseInt s = some i)
    (h0 : 0 ≤ i) (hlt : i < (pdf.chunks.length : Int))
    (hget : jsGet pdf.chunks (some i) = some text)
    (hmin : 10 ≤ jsLen text)
    (hmiss : slookup fs (audioFilename pdfId (idxToNat (some i)) voice) = none)
    (_hne : rate1 ≠ rate2) :
    postTts SynthBeh.ok fs store pdfId s voice rate1 =
      ⟨200, none, some false,
        some ("/audio/" ++ audioFilename pdfId (idxToNat (some i)) voice), 1,
        (audioFilename pdfId (idxToNat (some i)) voice, ⟨text, voice, rate1, true⟩) :: fs⟩ ∧
    postTts SynthBeh.ok
        ((audioFilename pdfId (idxToNat (some i)) voice, ⟨text, voice, rate1, true⟩) :: fs)
        store pdfId s voice rate2 =
      ⟨200, none, some true,
        some ("/audio/" ++ audioFilename pdfId (idxToNat (some i)) voice), 0,
        (audioFilename pdfId (idxToNat (some i)) voice, ⟨text, voice, rate1, true⟩) :: fs⟩ := by
  have hlt1 : jsLtNum (some i) 0 = false := by
    simp only [jsLtNum, decide_eq_false_iff_not]
    omega
  have hge1 : jsGeNum (some i) (pdf.chunks.length : Int) = false := by
    simp only [jsGeNum, decide_eq_false_iff_not]
    omega
  have hmin1 : ¬ jsLen text < 10 := Nat.not_lt.2 hmin
  constructor
  · simp [postTts, hfind, hparse, hlt1, hge1, hget, hmin1, hmiss, generateTTSM]
  · simp [postTts, hfind, hparse, hlt1, hge1, hget, hmin1, slookup, generateTTSM]

/-- Witness for C5: same key at rates `+0%` and `+50%`. -/
theorem C5_rate_not_in_key_witness :
    ("+0%" : String) ≠ "+50%" ∧
    (postTts SynthBeh.ok [] [("doc1", ⟨["Hello this is a test chunk text."]⟩)]
        "doc1" "0" "en-US-AriaNeural" "+0%" =
      ⟨200, none, some false,
        some ("/audio/" ++ audioFilename "doc1" (idxToNat (some 0)) "en-US-AriaNeural"), 1,
        [(audioFilename "doc1" (idxToNat (some 0)) "en-US-AriaNeural",
          ⟨"Hello this is a test chunk text.", "en-US-AriaNeural", "+0%", true⟩)]⟩ ∧
    postTts SynthBeh.ok
        [(audioFilename "doc1" (idxToNat (some 0)) "en-US-AriaNeural",
          ⟨"Hello this is a test chunk text.", "en-US-AriaNeural", "+0%", true⟩)]
        [("doc1", ⟨["Hello this is a test chunk text."]⟩)]
        "doc1" "0" "en-US-AriaNeural" "+50%" =
      ⟨200, none, some true,
        some ("/audio/" ++ audioFilename "doc1" (idxToNat (some 0)) "en-US-AriaNeural"), 0,
        [(audioFilename "doc1" (idxToNat (some 0)) "en-US-AriaNeural",
          ⟨"Hello this is a test chunk text.", "en-US-AriaNeural", "+0%", true⟩)]⟩) :=
  ⟨by decide,
    C5_rate_not_in_key [] [("doc1", ⟨["Hello this is a test chunk text."]⟩)]
      "doc1" "0" "en-US-AriaNeural" "+0%" "+50%" ⟨["Hello this is a test chunk text."]⟩ 0
      "Hello this is a test chunk text."
      (by decide) (by decide) (by decide) (by decide) (by decide) (by decide) (by decide)
      (by decide)⟩

/-- C6: the claim says every digit-only input line is removed, but in
`cleanText` the digit-line removal runs after `replace(/\s+/g, ' ')` has
already replaced the newlines, so an interior digit-only line survives into
the output: `"Hello\n42\nWorld"` cleans to `"Hello 42 World"`, keeping the
page-number artifact `42`. -/
theorem C6_digit_line_survives :
    cleanText "Hello\n42\nWorld" = "Hello 42 World" ∧ cleanText "42" = "" := by
  constructor <;> decide

/-- C8: the chunker is a total function (a total Lean definition mirroring
the straight-line source, which has no failing operation), and on the empty
string it returns the empty chunk sequence for every `maxChars`. -/
theorem C8_total_empty (maxChars : Nat) : splitIntoChunks "" maxChars = [] := by
  show (chunksGo maxChars [[]] [] []).map _ = []
  unfold chunksGo
  split <;> (simp only [chunksGo]; decide)

/-- C9: synthesis rejects too-short input as a caller error without invoking
the external tool: chunk-sourced text below 10 characters yields the
`Chunk too short` error with zero synthesis invocations, ad-hoc text below 2
characters yields the `Text required` error; in particular a 1-character
ad-hoc text is rejected while a 2-character one proceeds to synthesis. -/
theorem C9_min_length :
    (∀ (beh : SynthBeh) (fs : Fs) (store : List (String × PDFData))
        (pdfId s voice rate : String) (pdf : PDFData) (i : Int) (text : String),
      slookup store pdfId = some pdf →
      jsParseInt s = some i →
      0 ≤ i → i < (pdf.chunks.length : Int) →
      jsGet pdf.chunks (some i) = some text →
      jsLen text < 10 →
      postTts beh fs store pdfId s voice rate =
        ⟨400, some "Chunk too short", none, none, 0, fs⟩) ∧
    (∀ (beh : SynthBeh) (nowId : String) (fs : Fs) (text voice rate : String),
      jsLen text < 2 →
      postTtsCustom beh nowId fs text voice rate =
        ⟨400, some "Text required", none, 0, fs⟩) ∧
    (∀ (beh : SynthBeh) (nowId : String) (fs : Fs) (voice rate : String),
      postTtsCustom beh nowId fs "a" voice rate =
        ⟨400, some "Text required", none, 0, fs⟩) ∧
    (∀ (nowId : String) (fs : Fs) (voice rate : String),
      (postTtsCustom SynthBeh.ok nowId fs "ab" voice rate).status = 200 ∧
      (postTtsCustom SynthBeh.ok nowId fs "ab" voice rate).synthCalls = 1) := by
  refine ⟨?_, ?_, ?_, ?_⟩
  · intro beh fs store pdfId s voice rate pdf i text hfind hparse h0 hlt hget hmin
    unfold postTts
    rw [hfind]
    simp [hparse, jsLtNum, jsGeNum, hget, not_lt.2 (le_of_lt hlt), not_lt.2 h0, hmin]
    omega
  · intro beh nowId fs text voice rate hshort
    unfold postTtsCustom
    rw [if_pos (Or.inr hshort)]
  · intro beh nowId fs voice rate
    unfold postTtsCustom
    rw [if_pos (Or.inr (by decide))]
  · intro nowId fs voice rate
    unfold postTtsCustom
    rw [if_neg (by rintro (h | h) <;> revert h <;> decide)]
    simp [generateTTSM]

/-- Witness for C9 at concrete requests: a 6-character chunk is rejected,
`"a"` is rejected ad hoc, `"ab"` proceeds to synthesis. -/
theorem C9_min_length_witness :
    jsLen "Short." < 10 ∧
    postTts SynthBeh.ok [] [("d", ⟨["Short."]⟩)] "d" "0" "v" "+0%" =
      ⟨400, some "Chunk too short", none, none, 0, []⟩ ∧
    postTtsCustom SynthBeh.ok "t1" [] "a" "v" "+0%" =
      ⟨400, some "Text required", none, 0, []⟩ ∧
    (postTtsCustom SynthBeh.ok "t1" [] "ab" "v" "+0%").synthCalls = 1 :=
  ⟨by decide,
    C9_min_length.1 SynthBeh.ok [] [("d", ⟨["Short."]⟩)] "d" "0" "v" "+0%" ⟨["Short."]⟩ 0
      "Short." (by decide) (by decide) (by decide) (by decide) (by decide) (by decide),
    C9_min_length.2.2.1 SynthBeh.ok "t1" [] "v" "+0%",
    (C9_min_length.2.2.2 "t1" [] "v" "+0%").2⟩

/-- C10: for an existing document, a chunk-index parameter whose `parseInt`
is NaN passes the range guard (both comparisons are false for NaN), so the
chunk endpoint answers 200 with an `undefined` text field and the TTS
endpoint proceeds to dereference the undefined chunk (caught as a 500),
instead of returning the invalid-index error. -/
theorem C10_nan_index_guard (beh : SynthBeh) (fs : Fs)
    (store : List (String × PDFData)) (pdfId s voice rate : String) (pdf : PDFData)
    (hfind : slookup store pdfId = some pdf)
    (hnan : jsParseInt s = none) :
    getChunk store pdfId s = ⟨200, none, none⟩ ∧
    postTts beh fs store pdfId s voice rate =
      ⟨500, some "Cannot read properties of undefined", none, none, 0, fs⟩ := by
  unfold getChunk postTts
  rw [hfind]
  simp [hnan, jsLtNum, jsGeNum, jsGet]

/-- Witness for C10 with the non-numeric index `"abc"`. -/
theorem C10_nan_index_guard_witness :
    slookup [("p1", (⟨["0123456789ab"]⟩ : PDFData))] "p1" = some ⟨["0123456789ab"]⟩ ∧
    jsParseInt "abc" = none ∧
    (getChunk [("p1", ⟨["0123456789ab"]⟩)] "p1" "abc" = ⟨200, none, none⟩ ∧
    postTts SynthBeh.ok [] [("p1", ⟨["0123456789ab"]⟩)] "p1" "abc" "v" "+0%" =
      ⟨500, some "Cannot read properties of undefined", none, none, 0, []⟩) :=
  ⟨by decide, by decide,
    C10_nan_index_guard SynthBeh.ok [] [("p1", ⟨["0123456789ab"]⟩)] "p1" "abc" "v" "+0%"
      ⟨["0123456789ab"]⟩ (by decide) (by decide)⟩

/-! ## Lemmas on decimal rendering and affix parsing (for the file-name key) -/

/-- `takeWhile`/`dropWhile` recover the two sides of an append whose left part
satisfies the predicate everywhere and whose right part starts with a
failing character. -/
theorem takeWhile_append_all {p : Char → Bool} :
    ∀ (a b : List Char), (∀ x ∈ a, p x = true) →
      (∀ c, b.head? = some c → p c = false) →
      (a ++ b).takeWhile p = a ∧ (a ++ b).dropWhile p = b := by
  intro a
  induction a with
  | nil =>
    intro b _ hb
    cases b with
    | nil => exact ⟨rfl, rfl⟩
    | cons c bs =>
      have hc : p c = false := hb c rfl
      simp [List.takeWhile_cons, List.dropWhile_cons, hc]
  | cons x xs ih =>
    intro b hall hb
    have hx : p x = true := hall x (by simp)
    have h2 := ih b (fun y hy => hall y (by simp [hy])) hb
    simp [List.takeWhile_cons, List.dropWhile_cons, hx, h2.1, h2.2]

/-- Every decimal digit character is an ASCII digit. -/
theorem digitChar10_isDigit (r : Nat) : isDigitC (digitChar10 r) = true := by
  unfold digitChar10
  repeat' split
  all_goals decide

/-- Decimal digit characters decode to their residue. -/
theorem digitChar10_val (r : Nat) (h : r < 10) : (digitChar10 r).toNat - 48 = r := by
  interval_cases r <;> decide

/-- The accumulator of `natCharsAux` is appended on the right. -/
theorem natCharsAux_acc (fuel : Nat) :
    ∀ (n : Nat) (acc : List Char), natCharsAux fuel n acc = natCharsAux fuel n [] ++ acc := by
  induction fuel with
  | zero => intro n acc; rfl
  | succ fuel ih =>
    intro n acc
    by_cases h : n < 10
    · simp [natCharsAux, h]
    · simp only [natCharsAux, if_neg h]
      rw [ih (n / 10) (digitChar10 (n % 10) :: acc), ih (n / 10) [digitChar10 (n % 10)]]
      simp

/-- Appending one digit multiplies the decoded value by ten. -/
theorem val10_append_one (l : List Char) (c : Char) :
    val10 (l ++ [c]) = 10 * val10 l + (c.toNat - 48) := by
  simp [val10, List.foldl_append]

/-- With sufficient fuel, `natCharsAux` renders a decimal numeral that
decodes to its input. -/
theorem natCharsAux_val : ∀ (fuel n : Nat), n ≤ fuel → val10 (natCharsAux fuel n []) = n := by
  intro fuel
  induction fuel with
  | zero =>
    intro n hn
    have h0 : n = 0 := Nat.le_zero.1 hn
    subst h0
    show val10 [digitChar10 0] = 0
    simp [val10, digitChar10]
  | succ fuel ih =>
    intro n hn
    by_cases h : n < 10
    · simp only [natCharsAux, if_pos h]
      show val10 [digitChar10 (n % 10)] = n
      have hv : (digitChar10 (n % 10)).toNat - 48 = n % 10 :=
        digitChar10_val (n % 10) (Nat.mod_lt _ (by omega))
      simp only [val10, List.foldl_cons, List.foldl_nil, Nat.mul_zero, Nat.zero_add]
      rw [Nat.mod_eq_of_lt h] at hv ⊢
      exact hv
    · simp only [natCharsAux, if_neg h]
      rw [natCharsAux_acc fuel (n / 10) [digitChar10 (n % 10)], val10_append_one]
      have hdiv : n / 10 < n := Nat.div_lt_self (by omega) (by omega)
      rw [ih (n / 10) (by omega)]
      have hv : (digitChar10 (n % 10)).toNat - 48 = n % 10 :=
        digitChar10_val (n % 10) (Nat.mod_lt _ (by omega))
      rw [hv]
      omega

/-- Decoding inverts the decimal rendering. -/
theorem val10_natChars (n : Nat) : val10 (natChars n) = n :=
  natCharsAux_val n n le_rfl

/-- The decimal rendering is injective. -/
theorem natChars_inj {m n : Nat} (h : natChars m = natChars n) : m = n := by
  have hm := val10_natChars m
  rw [h, val10_natChars] at hm
  omega

/-- `natCharsAux` only produces digit characters (given a digit accumulator). -/
theorem natCharsAux_digits : ∀ (fuel n : Nat) (acc : List Char),
    (∀ c ∈ acc, isDigitC c = true) → ∀ c ∈ natCharsAux fuel n acc, isDigitC c = true := by
  intro fuel
  induction fuel with
  | zero =>
    intro n acc hacc c hc
    rcases List.mem_cons.1 hc with rfl | hc
    · exact digitChar10_isDigit _
    · exact hacc c hc
  | succ fuel ih =>
    intro n acc hacc c hc
    by_cases h : n < 10
    · simp only [natCharsAux, if_pos h] at hc
      rcases List.mem_cons.1 hc with rfl | hc
      · exact digitChar10_isDigit _
      · exact hacc c hc
    · simp only [natCharsAux, if_neg h] at hc
      exact ih (n / 10) (digitChar10 (n % 10) :: acc)
        (by
          intro x hx
          rcases List.mem_cons.1 hx with rfl | hx
          · exact digitChar10_isDigit _
          · exact hacc x hx) c hc

/-- The decimal rendering consists of digit characters only. -/
theorem natChars_digits (n : Nat) : ∀ c ∈ natChars n, isDigitC c = true :=
  natCharsAux_digits n n [] (by intro c hc; cases hc)

/-- The cache file name determines the document id, the chunk index and the
sanitised voice: reading the name from the right, the maximal alphanumeric
run before `.mp3` is the sanitised voice (it cannot contain `_`), the
maximal digit run before that is the index numeral, and what remains after
the `_chunk_` separator is the document id. -/
theorem audioFilenameL_inj (d1 d2 : List Char) (i1 i2 : Nat) (v1 v2 : List Char)
    (h : audioFilenameL d1 i1 v1 = audioFilenameL d2 i2 v2) :
    d1 = d2 ∧ i1 = i2 ∧ v1.filter isAlnumC = v2.filter isAlnumC := by
  have hr := congrArg List.reverse h
  simp only [audioFilenameL, chunkSep, mp3Suffix, List.reverse_append, List.append_assoc,
    List.reverse_cons, List.reverse_nil, List.nil_append, List.cons_append,
    List.cons.injEq, true_and] at hr
  have hv : ∀ (v : List Char) (r : List Char),
      ((v.filter isAlnumC).reverse ++ '_' :: r).takeWhile isAlnumC = (v.filter isAlnumC).reverse ∧
      ((v.filter isAlnumC).reverse ++ '_' :: r).dropWhile isAlnumC = '_' :: r := by
    intro v r
    refine takeWhile_append_all _ _ ?_ ?_
    · intro x hx
      exact (List.mem_filter.1 (List.mem_reverse.1 hx)).2
    · intro c hc
      cases hc
      decide
  have e1 := congrArg (List.takeWhile isAlnumC) hr
  rw [(hv v1 _).1, (hv v2 _).1] at e1
  have hfv : v1.filter isAlnumC = v2.filter isAlnumC := by
    have := congrArg List.reverse e1
    simpa using this
  have e2 := congrArg (List.dropWhile isAlnumC) hr
  rw [(hv v1 _).2, (hv v2 _).2] at e2
  simp only [List.cons.injEq, true_and] at e2
  have hd : ∀ (i : Nat) (r : List Char),
      ((natChars i).reverse ++ '_' :: r).takeWhile isDigitC = (natChars i).reverse ∧
      ((natChars i).reverse ++ '_' :: r).dropWhile isDigitC = '_' :: r := by
    intro i r
    refine takeWhile_append_all _ _ ?_ ?_
    · intro x hx
      exact natChars_digits i x (List.mem_reverse.1 hx)
    · intro c hc
      cases hc
      decide
  have e3 := congrArg (List.takeWhile isDigitC) e2
  rw [(hd i1 _).1, (hd i2 _).1] at e3
  have hi : i1 = i2 := by
    apply natChars_inj
    have := congrArg List.reverse e3
    simpa using this
  have e4 := congrArg (List.dropWhile isDigitC) e2
  rw [(hd i1 _).2, (hd i2 _).2] at e4
  simp only [List.cons.injEq, true_and] at e4
  have hdID : d1 = d2 := by
    have := congrArg List.reverse e4
    simpa using this
  exact ⟨hdID, hi, hfv⟩

/-- C7 counterexample: the derivation is not collision-free on the raw
triple, because the voice id is sanitised before entering the name: the
distinct voices `en-US-AriaNeural` and `enUSAriaNeural` yield the same
artifact path for the same document and index. -/
theorem C7_counterexample :
    ("en-US-AriaNeural" : String) ≠ "enUSAriaNeural" ∧
    audioFilename "doc" 0 "en-US-AriaNeural" = audioFilename "doc" 0 "enUSAriaNeural" :=
  ⟨by decide, by decide⟩

/-- C7 amended: `audioFilename` is deterministic (a function) and injective
up to voice sanitisation: equal derived paths force equal document ids,
equal chunk indices and equal sanitised voice ids; collisions occur exactly
between voice ids with the same alphanumeric residue. -/
theorem C7_amended (d1 d2 : String) (i1 i2 : Nat) (v1 v2 : String)
    (h : audioFilename d1 i1 v1 = audioFilename d2 i2 v2) :
    d1 = d2 ∧ i1 = i2 ∧ sanitizeVoice v1 = sanitizeVoice v2 := by
  have hl : audioFilenameL d1.data i1 v1.data = audioFilenameL d2.data i2 v2.data :=
    congrArg String.data h
  obtain ⟨hd, hi, hv⟩ := audioFilenameL_inj _ _ _ _ _ _ hl
  refine ⟨?_, hi, ?_⟩
  · cases d1
    cases d2
    exact congrArg String.mk hd
  · show (⟨v1.data.filter isAlnumC⟩ : String) = ⟨v2.data.filter isAlnumC⟩
    rw [hv]

/-- Witness for the amended C7 at a concrete equal pair of keys. -/
theorem C7_amended_witness :
    audioFilename "doc" 5 "en-US" = audioFilename "doc" 5 "enUS" ∧
    ("doc" : String) = "doc" ∧ 5 = 5 ∧ sanitizeVoice "en-US" = sanitizeVoice "enUS" :=
  ⟨by decide, C7_amended "doc" "doc" 5 5 "en-US" "enUS" (by decide)⟩

/-! ## Lemmas for the chunk bound (C1) -/

/-- JS length is additive over append. -/
theorem jsLenL_append (a b : List Char) : jsLenL (a ++ b) = jsLenL a + jsLenL b := by
  simp [jsLenL]

/-- JS length is invariant under reversal. -/
theorem jsLenL_reverse (l : List Char) : jsLenL l.reverse = jsLenL l := by
  simp [jsLenL, List.map_reverse, List.sum_reverse]

/-- Dropping a predicate-satisfying head run never lengthens a string. -/
theorem jsLenL_dropWhile_le (p : Char → Bool) (l : List Char) :
    jsLenL (l.dropWhile p) ≤ jsLenL l := by
  induction l with
  | nil => simp
  | cons c rest ih =>
    rw [List.dropWhile_cons]
    split
    · calc jsLenL (rest.dropWhile p) ≤ jsLenL rest := ih
        _ ≤ jsLenL (c :: rest) := by simp [jsLenL]
    · exact le_rfl

/-- Trimming never lengthens a string. -/
theorem jsLenL_trimL_le (l : List Char) : jsLenL (trimL l) ≤ jsLenL l := by
  unfold trimL
  calc jsLenL ((l.dropWhile isJsWs).reverse.dropWhile isJsWs).reverse
      = jsLenL ((l.dropWhile isJsWs).reverse.dropWhile isJsWs) := jsLenL_reverse _
    _ ≤ jsLenL (l.dropWhile isJsWs).reverse := jsLenL_dropWhile_le _ _
    _ = jsLenL (l.dropWhile isJsWs) := jsLenL_reverse _
    _ ≤ jsLenL l := jsLenL_dropWhile_le _ _

/-- `dropWhile` over an append proceeds into the right part exactly when it
exhausts the left part. -/
theorem dropWhile_append_char (p : Char → Bool) :
    ∀ (a b : List Char), (a ++ b).dropWhile p =
      if a.dropWhile p = [] then b.dropWhile p else a.dropWhile p ++ b := by
  intro a
  induction a with
  | nil => intro b; simp
  | cons x xs ih =>
    intro b
    rw [List.cons_append, List.dropWhile_cons, List.dropWhile_cons]
    split
    · rw [ih b]
    · simp

/-- The trailing space appended by the accumulation loop is erased by
`trim`. -/
theorem trimL_append_space (l : List Char) : trimL (l ++ [' ']) = trimL l := by
  unfold trimL
  rw [dropWhile_append_char]
  split
  · rename_i h
    rw [h]
    simp [List.dropWhile_cons, isJsWs]
  · rw [List.reverse_append]
    have : ([' '] : List Char).reverse = [' '] := rfl
    rw [this]
    have hws : isJsWs ' ' = true := by decide
    simp [List.dropWhile_cons, hws]

/-- Loop invariant of the chunk bound: every chunk the loop has emitted or
will emit is shorter than `maxChars` or is the trimming of a single source
sentence at least `maxChars` long. -/
theorem chunksGo_bound (m : Nat) (ss0 : List (List Char)) :
    ∀ (ss : List (List Char)) (cur : List Char) (chunks : List (List Char)),
      (∀ s ∈ ss, s ∈ ss0) →
      (cur = [] ∨ jsLenL (trimL cur) < m ∨
        ∃ s ∈ ss0, trimL cur = trimL s ∧ m ≤ jsLenL s) →
      (∀ c ∈ chunks, jsLenL c < m ∨ ∃ s ∈ ss0, c = trimL s ∧ m ≤ jsLenL s) →
      ∀ c ∈ chunksGo m ss cur chunks,
        jsLenL c < m ∨ ∃ s ∈ ss0, c = trimL s ∧ m ≤ jsLenL s := by
  intro ss
  induction ss with
  | nil =>
    intro cur chunks _ hinv hchunks c hc
    unfold chunksGo at hc
    split at hc
    · exact hchunks c hc
    · rename_i hne
      rcases List.mem_append.1 hc with hc | hc
      · exact hchunks c hc
      · have hceq : c = trimL cur := by simpa using hc
        subst hceq
        rcases hinv with rfl | hinv
        · exact absurd rfl hne
        · rcases hinv with hlt | ⟨s, hs, heq, hlen⟩
          · exact Or.inl hlt
          · exact Or.inr ⟨s, hs, heq, hlen⟩
  | cons s rest ih =>
    intro cur chunks hsub hinv hchunks c hc
    unfold chunksGo at hc
    split at hc
    · rename_i hfit
      refine ih (cur ++ s ++ [' ']) chunks (fun t ht => hsub t (by simp [ht])) ?_ hchunks c hc
      right
      left
      have h1 : cur ++ s ++ [' '] = (cur ++ s) ++ [' '] := by simp
      rw [h1, trimL_append_space]
      exact lt_of_le_of_lt (jsLenL_trimL_le _) hfit
    · rename_i hnofit
      refine ih (s ++ [' ']) _ (fun t ht => hsub t (by simp [ht])) ?_ ?_ c hc
      · by_cases hlen : jsLenL (trimL (s ++ [' '])) < m
        · exact Or.inr (Or.inl hlen)
        · refine Or.inr (Or.inr ⟨s, hsub s (by simp), trimL_append_space s, ?_⟩)
          rw [trimL_append_space] at hlen
          calc m ≤ jsLenL (trimL s) := Nat.le_of_not_lt hlen
            _ ≤ jsLenL s := jsLenL_trimL_le s
      · intro d hd
        split at hd
        · exact hchunks d hd
        · rename_i hcurne
          rcases List.mem_append.1 hd with hd | hd
          · exact hchunks d hd
          · have hdeq : d = trimL cur := by simpa using hd
            subst hdeq
            rcases hinv with rfl | hinv
            · exact absurd rfl hcurne
            · rcases hinv with hlt | ⟨t, ht, heq, hlen⟩
              · exact Or.inl hlt
              · exact Or.inr ⟨t, ht, heq, hlen⟩

/-- C1: every chunk produced by `splitIntoChunks` is strictly shorter than
`maxChars`, except a chunk that is a single sentence of the split (kept
unsplit, up to the trim the loop applies) whose own length is at least
`maxChars`. -/
theorem C1_chunk_bound (text : String) (maxChars : Nat) (c : String)
    (hc : c ∈ splitIntoChunks text maxChars) :
    jsLen c < maxChars ∨
      ∃ s ∈ splitSentences text, c = jsTrim s ∧ maxChars ≤ jsLen s := by
  obtain ⟨cl, hcl, rfl⟩ := List.mem_map.1 hc
  have := chunksGo_bound maxChars (splitSentencesL text.data) (splitSentencesL text.data)
    [] [] (fun t ht => ht) (Or.inl rfl) (by intro d hd; cases hd) cl hcl
  rcases this with hlt | ⟨sl, hsl, heq, hlen⟩
  · exact Or.inl hlt
  · refine Or.inr ⟨⟨sl⟩, List.mem_map_of_mem _ hsl, ?_, hlen⟩
    show (⟨cl⟩ : String) = ⟨trimL sl⟩
    rw [heq]

/-- Witness for C1: with `maxChars = 5` the nine-character sentence
`Hi there.` becomes its own oversized chunk. -/
theorem C1_chunk_bound_witness :
    ("Hi there." : String) ∈ splitIntoChunks "Hi there. Bye." 5 ∧
    (jsLen "Hi there." < 5 ∨
      ∃ s ∈ splitSentences "Hi there. Bye.",
        ("Hi there." : String) = jsTrim s ∧ 5 ≤ jsLen s) :=
  ⟨by decide, C1_chunk_bound "Hi there. Bye." 5 "Hi there." (by decide)⟩

/-! ## Lemmas for chunk reconstruction (C2) -/

/-- Sentence punctuation is not whitespace. -/
theorem punct_not_ws (c : Char) (h : isPunctC c = true) : isJsWs c = false := by
  unfold isPunctC at h
  simp only [Bool.or_eq_true, beq_iff_eq] at h
  rcases h with (rfl | rfl) | rfl <;> decide

/-- Members of the `dropWhile` output are members of the input. -/
theorem mem_dropWhile_sub {p : Char → Bool} :
    ∀ {l : List Char} {x : Char}, x ∈ l.dropWhile p → x ∈ l := by
  intro l
  induction l with
  | nil => intro x hx; exact absurd hx (by simp)
  | cons a as ih =>
    intro x hx
    rw [List.dropWhile_cons] at hx
    split at hx
    · exact List.mem_cons_of_mem a (ih hx)
    · exact hx

/-- A chain survives dropping a prefix run. -/
theorem chain'_dropWhile {R : Char → Char → Prop} {p : Char → Bool} :
    ∀ {l : List Char}, List.Chain' R l → List.Chain' R (l.dropWhile p) := by
  intro l
  induction l with
  | nil => intro h; exact h
  | cons a as ih =>
    intro h
    rw [List.dropWhile_cons]
    split
    · exact ih h.tail
    · exact h

/-- Non-adjacency of whitespace is symmetric. -/
theorem nowspair_symm {a b : Char} (h : NoWsPair a b) : NoWsPair b a := by
  unfold NoWsPair at h ⊢
  tauto

/-- Non-adjacency of whitespace survives reversal. -/
theorem chain_nowspair_reverse {l : List Char} (h : List.Chain' NoWsPair l) :
    List.Chain' NoWsPair l.reverse :=
  List.chain'_reverse.2 (h.imp fun _ _ hab => nowspair_symm hab)

/-- The head remaining after `dropWhile` fails the predicate. -/
theorem head?_dropWhile_notp {p : Char → Bool} :
    ∀ (l : List Char) (c : Char), (l.dropWhile p).head? = some c → p c = false := by
  intro l
  induction l with
  | nil => intro c hc; cases hc
  | cons a as ih =>
    intro c hc
    rw [List.dropWhile_cons] at hc
    split at hc
    · exact ih c hc
    · rename_i hpa
      cases hc
      exact Bool.eq_false_iff.2 hpa

/-- When `dropWhile` keeps anything it keeps the last element. -/
theorem getLast?_dropWhile_of_ne {p : Char → Bool} :
    ∀ (l : List Char), l.dropWhile p ≠ [] → (l.dropWhile p).getLast? = l.getLast? := by
  intro l
  induction l with
  | nil => intro h; exact absurd rfl h
  | cons a as ih =>
    intro h
    by_cases hpa : p a = true
    · rw [List.dropWhile_cons_of_pos hpa] at h ⊢
      have has : as ≠ [] := by
        intro he
        subst he
        simp at h
      rw [ih h]
      cases as with
      | nil => exact absurd rfl has
      | cons b bs => exact (List.getLast?_cons_cons).symm
    · rw [List.dropWhile_cons_of_neg hpa]

/-- Trimming a collapsed string yields a normalized string. -/
theorem trimL_normed (u : List Char)
    (hP1 : ∀ c ∈ u, isJsWs c = true → c = ' ')
    (hch : List.Chain' NoWsPair u) : NormedL (trimL u) := by
  unfold trimL
  refine ⟨?_, ?_, ?_, ?_⟩
  · intro c hc hws
    exact hP1 c (mem_dropWhile_sub (List.mem_reverse.1
      (mem_dropWhile_sub (List.mem_reverse.1 hc)))) hws
  · exact chain_nowspair_reverse (chain'_dropWhile (chain_nowspair_reverse (chain'_dropWhile hch)))
  · intro c hc
    rw [List.head?_reverse] at hc
    have hne : (u.dropWhile isJsWs).reverse.dropWhile isJsWs ≠ [] := by
      intro he
      rw [he] at hc
      cases hc
    rw [getLast?_dropWhile_of_ne _ hne, List.getLast?_reverse] at hc
    exact head?_dropWhile_notp u c hc
  · intro c hc
    rw [List.getLast?_reverse] at hc
    exact head?_dropWhile_notp _ c hc

/-- After whitespace collapse every whitespace character is a space. -/
theorem collapse_P1 :
    ∀ (l : List Char) (b : Bool) (c : Char), c ∈ collapseGo l b →
      isJsWs c = true → c = ' ' := by
  intro l
  induction l with
  | nil => intro b c hc; cases hc
  | cons d rest ih =>
    intro b c hc hws
    unfold collapseGo at hc
    split at hc
    · split at hc
      · exact ih true c hc hws
      · rcases List.mem_cons.1 hc with rfl | hc
        · rfl
        · exact ih true c hc hws
    · rcases List.mem_cons.1 hc with rfl | hc
      · rename_i hd
        exact absurd hws (by simp [hd])
      · exact ih false c hc hws

/-- Inside a run, the collapse continuation starts with non-whitespace. -/
theorem collapse_head_true :
    ∀ (l : List Char) (c : Char), (collapseGo l true).head? = some c → isJsWs c = false := by
  intro l
  induction l with
  | nil => intro c hc; cases hc
  | cons d rest ih =>
    intro c hc
    unfold collapseGo at hc
    split at hc
    · exact ih c hc
    · rename_i hd
      cases hc
      exact Bool.eq_false_iff.2 hd

/-- Whitespace collapse leaves no two adjacent whitespace characters. -/
theorem collapse_chain : ∀ (l : List Char) (b : Bool), List.Chain' NoWsPair (collapseGo l b) := by
  intro l
  induction l with
  | nil => intro b; exact List.chain'_nil
  | cons d rest ih =>
    intro b
    unfold collapseGo
    split
    · split
      · exact ih true
      · refine List.chain'_cons'.2 ⟨?_, ih true⟩
        intro y hy
        have : isJsWs y = false := collapse_head_true rest y hy
        unfold NoWsPair
        simp [this]
    · rename_i hd
      refine List.chain'_cons'.2 ⟨?_, ih false⟩
      intro y hy
      unfold NoWsPair
      simp [hd]

/-- Digit-line removal returns the input or the empty string. -/
theorem rdl_cases (l : List Char) : removeDigitLine l = l ∨ removeDigitLine l = [] := by
  unfold removeDigitLine
  split
  · exact Or.inl rfl
  · split
    · exact Or.inr rfl
    · exact Or.inl rfl

/-- The empty string is normalized. -/
theorem NormedL_nil : NormedL [] := by
  refine ⟨?_, List.chain'_nil, ?_, ?_⟩
  · intro c hc; cases hc
  · intro c hc; cases hc
  · intro c hc; cases hc

/-- Every `cleanText` output is normalized. -/
theorem NormedL_cleanL (l : List Char) : NormedL (cleanL l) := by
  unfold cleanL collapseWs
  rcases rdl_cases (collapseGo (expandEllipsis
      (((l.filter (fun c => !isRemovedCtrl c)).map mapSQuote).map mapDQuote |>.map mapDash))
      false) with h | h
  · rw [h]
    exact trimL_normed _ (collapse_P1 _ false) (collapse_chain _ false)
  · rw [h]
    show NormedL (trimL [])
    exact NormedL_nil

/-- The sentence split always returns at least one sentence. -/
theorem sGo_ne_nil : ∀ (l acc : List Char) (b : Bool), sGo l acc b ≠ [] := by
  intro l
  induction l with
  | nil =>
    intro acc b
    cases b <;> simp [sGo]
  | cons c rest ih =>
    intro acc b
    cases b with
    | false =>
      simp only [sGo]
      split
      · simp
      · exact ih (c :: acc) false
    | true =>
      simp only [sGo]
      split
      · exact ih acc true
      · exact ih [c] false

/-- Unfolding `joinSpL` on a list of at least two elements. -/
theorem joinSpL_cons_ne (s : List Char) (rest : List (List Char)) (h : rest ≠ []) :
    joinSpL (s :: rest) = s ++ ' ' :: joinSpL rest := by
  cases rest with
  | nil => exact absurd rfl h
  | cons t r => rfl

/-- On text whose whitespace consists of single non-adjacent spaces, joining the sentence split with single spaces reproduces the text. -/
theorem split_join : ∀ (n : Nat) (l acc : List Char), l.length ≤ n →
    (∀ c ∈ l, isJsWs c = true → c = ' ') → List.Chain' NoWsPair l →
    joinSpL (sGo l acc false) = acc.reverse ++ l := by
  intro n
  induction n with
  | zero =>
    intro l acc hlen _ _
    have h0 : l = [] := List.length_eq_zero.1 (Nat.le_zero.1 hlen)
    subst h0
    show joinSpL [acc.reverse] = acc.reverse ++ []
    simp [joinSpL]
  | succ n ih =>
    intro l acc hlen hP1 hch
    cases l with
    | nil =>
      show joinSpL [acc.reverse] = acc.reverse ++ []
      simp [joinSpL]
    | cons c rest =>
      simp only [sGo]
      by_cases hb : (isJsWs c && isPunctHead acc) = true
      · rw [if_pos hb]
        have hws : isJsWs c = true := by
          simp only [Bool.and_eq_true] at hb
          exact hb.1
        have hc : c = ' ' := hP1 c (by simp) hws
        cases rest with
        | nil =>
          show joinSpL [acc.reverse, []] = acc.reverse ++ [c]
          subst hc
          simp [joinSpL]
        | cons r rest' =>
          have hr : isJsWs r = false := by
            have hrel : NoWsPair c r := (List.chain'_cons'.1 hch).1 r rfl
            unfold NoWsPair at hrel
            by_contra hcon
            exact hrel ⟨hws, Bool.not_eq_false _ ▸ hcon⟩
          have hstep : sGo (r :: rest') [] true = sGo rest' [r] false := by
            simp only [sGo, hr]
            simp
          rw [hstep]
          rw [joinSpL_cons_ne _ _ (sGo_ne_nil rest' [r] false)]
          have hlen' : rest'.length ≤ n := by
            simp only [List.length_cons] at hlen
            omega
          rw [ih rest' [r] hlen'
            (fun x hx hwx => hP1 x (by simp [hx]) hwx) hch.tail.tail]
          subst hc
          simp
      · rw [if_neg hb]
        have hlen' : rest.length ≤ n := by
          simp only [List.length_cons] at hlen
          omega
        rw [ih rest (c :: acc) hlen'
          (fun x hx hwx => hP1 x (by simp [hx]) hwx) hch.tail]
        simp

/-- An accumulator with non-whitespace first and last consumed characters reverses to a clean sentence. -/
theorem emit_clean (acc : List Char) (hacc : acc ≠ [])
    (hB : ∀ c, acc.getLast? = some c → isJsWs c = false)
    (hC : ∀ c, acc.head? = some c → isJsWs c = false) : CleanSent acc.reverse := by
  refine ⟨by simpa using hacc, ?_, ?_⟩
  · intro c hc
    rw [List.head?_reverse] at hc
    exact hB c hc
  · intro c hc
    rw [List.getLast?_reverse] at hc
    exact hC c hc

/-- Splitting normalized non-empty text yields clean sentences; the side conditions track the boundary characters of accumulator and remaining input. -/
theorem split_clean : ∀ (n : Nat) (l acc : List Char), l.length ≤ n →
    List.Chain' NoWsPair l →
    (acc = [] → l ≠ [] ∧ ∀ c, l.head? = some c → isJsWs c = false) →
    (∀ c, acc.getLast? = some c → isJsWs c = false) →
    (l = [] → ∀ c, acc.head? = some c → isJsWs c = false) →
    (∀ c, l.getLast? = some c → isJsWs c = false) →
    ∀ s ∈ sGo l acc false, CleanSent s := by
  intro n
  induction n with
  | zero =>
    intro l acc hlen _ hA hB hC _ s hs
    have h0 : l = [] := List.length_eq_zero.1 (Nat.le_zero.1 hlen)
    subst h0
    have hacc : acc ≠ [] := by
      intro he
      exact (hA he).1 rfl
    have hseq : s = acc.reverse := by simpa [sGo] using hs
    subst hseq
    exact emit_clean acc hacc hB (hC rfl)
  | succ n ih =>
    intro l acc hlen hch hA hB hC hD s hs
    cases l with
    | nil =>
      have hacc : acc ≠ [] := by
        intro he
        exact (hA he).1 rfl
      have hseq : s = acc.reverse := by simpa [sGo] using hs
      subst hseq
      exact emit_clean acc hacc hB (hC rfl)
    | cons c rest =>
      simp only [sGo] at hs
      by_cases hb : (isJsWs c && isPunctHead acc) = true
      · rw [if_pos hb] at hs
        have hws : isJsWs c = true := by
          simp only [Bool.and_eq_true] at hb
          exact hb.1
        have hph : isPunctHead acc = true := by
          simp only [Bool.and_eq_true] at hb
          exact hb.2
        obtain ⟨p, hp, hpunct⟩ : ∃ p, acc.head? = some p ∧ isPunctC p = true := by
          unfold isPunctHead at hph
          cases hacc : acc.head? with
          | none => rw [hacc] at hph; cases hph
          | some q => rw [hacc] at hph; exact ⟨q, rfl, hph⟩
        have hacc : acc ≠ [] := by
          intro he
          subst he
          cases hp
        cases rest with
        | nil =>
          have : isJsWs c = false := hD c rfl
          rw [this] at hws
          cases hws
        | cons r rest' =>
          have hr : isJsWs r = false := by
            have hrel : NoWsPair c r := (List.chain'_cons'.1 hch).1 r rfl
            unfold NoWsPair at hrel
            by_contra hcon
            exact hrel ⟨hws, Bool.not_eq_false _ ▸ hcon⟩
          have hstep : sGo (r :: rest') [] true = sGo rest' [r] false := by
            simp only [sGo, hr]
            simp
          rw [hstep] at hs
          rcases List.mem_cons.1 hs with rfl | hs
          · refine emit_clean acc hacc hB ?_
            intro x hx
            rw [hp] at hx
            cases hx
            exact punct_not_ws p hpunct
          · have hlen' : rest'.length ≤ n := by
              simp only [List.length_cons] at hlen
              omega
            refine ih rest' [r] hlen' hch.tail.tail
              (fun h => absurd h (by simp)) ?_ ?_ ?_ s hs
            · intro x hx
              simp only [List.getLast?_singleton, Option.some.injEq] at hx
              subst hx
              exact hr
            · intro _ x hx
              simp only [List.head?_cons, Option.some.injEq] at hx
              subst hx
              exact hr
            · intro x hx
              cases rest' with
              | nil => cases hx
              | cons b bs =>
                apply hD
                rw [List.getLast?_cons_cons, List.getLast?_cons_cons]
                exact hx
      · rw [if_neg hb] at hs
        have hlen' : rest.length ≤ n := by
          simp only [List.length_cons] at hlen
          omega
        refine ih rest (c :: acc) hlen' hch.tail
          (fun h => absurd h (by simp)) ?_ ?_ ?_ s hs
        · intro x hx
          cases acc with
          | nil =>
            simp only [List.getLast?_singleton, Option.some.injEq] at hx
            subst hx
            exact (hA rfl).2 c rfl
          | cons a as =>
            apply hB
            rw [List.getLast?_cons_cons] at hx
            exact hx
        · intro hrest x hx
          simp only [List.head?_cons, Option.some.injEq] at hx
          subst hx
          subst hrest
          exact hD c rfl
        · intro x hx
          cases rest with
          | nil => cases hx
          | cons b bs =>
            apply hD
            rw [List.getLast?_cons_cons]
            exact hx

/-- The last element of an append with a non-empty right part. -/
theorem getLast?_append_right (a b : List Char) (hb : b ≠ []) :
    (a ++ b).getLast? = b.getLast? := by
  rw [List.getLast?_append]
  cases hgb : b.getLast? with
  | none => exact absurd (List.getLast?_eq_none_iff.1 hgb) hb
  | some x => rfl

/-- The head of an append with a non-empty left part. -/
theorem head?_append_left (a b : List Char) (ha : a ≠ []) :
    (a ++ b).head? = a.head? := by
  cases a with
  | nil => exact absurd rfl ha
  | cons x xs => rfl

/-- `dropWhile` is the identity when the head already fails. -/
theorem dropWhile_eq_self_of_head (l : List Char)
    (h : ∀ c, l.head? = some c → isJsWs c = false) : l.dropWhile isJsWs = l := by
  cases l with
  | nil => rfl
  | cons a as =>
    have ha := h a rfl
    rw [List.dropWhile_cons_of_neg (by simp [ha])]

/-- Trimming a clean sentence group with its trailing space recovers the group. -/
theorem trimL_clean_append (j : List Char) (h : CleanSent j) : trimL (j ++ [' ']) = j := by
  obtain ⟨hne, hhead, hlast⟩ := h
  unfold trimL
  rw [dropWhile_eq_self_of_head (j ++ [' '])
    (by
      intro c hc
      rw [head?_append_left _ _ hne] at hc
      exact hhead c hc)]
  rw [List.reverse_append]
  have h1 : ([' '] : List Char).reverse = [' '] := rfl
  rw [h1]
  have h2 : ((' ' :: j.reverse) : List Char).dropWhile isJsWs = j.reverse.dropWhile isJsWs := by
    rw [List.dropWhile_cons_of_pos (by decide)]
  rw [List.cons_append, List.nil_append, h2]
  rw [dropWhile_eq_self_of_head j.reverse
    (by
      intro c hc
      rw [List.head?_reverse] at hc
      exact hlast c hc)]
  exact List.reverse_reverse j

/-- The chunk accumulator array only grows by appending. -/
theorem chunksGo_append (m : Nat) : ∀ (ss : List (List Char)) (cur : List Char)
    (base : List (List Char)),
    chunksGo m ss cur base = base ++ chunksGo m ss cur [] := by
  intro ss
  induction ss with
  | nil =>
    intro cur base
    unfold chunksGo
    split
    · simp
    · simp
  | cons s rest ih =>
    intro cur base
    unfold chunksGo
    split
    · rw [ih (cur ++ s ++ [' ']) base]
    · rw [ih (s ++ [' ']) (if cur = [] then base else base ++ [trimL cur]),
        ih (s ++ [' ']) (if cur = [] then [] else [] ++ [trimL cur])]
      by_cases hc : cur = []
      · simp [hc]
      · simp [hc]

/-- Joining a non-empty list of non-empty chunks is non-empty. -/
theorem joinSpL_ne_nil (cs : List (List Char)) (hne : ∀ s ∈ cs, s ≠ []) (h : cs ≠ []) :
    joinSpL cs ≠ [] := by
  cases cs with
  | nil => exact absurd rfl h
  | cons s rest =>
    cases rest with
    | nil => exact hne s (by simp)
    | cons t r =>
      show s ++ ' ' :: joinSpL (t :: r) ≠ []
      simp

/-- `joinSpL` computes by `glue` on non-empty chunks. -/
theorem joinSpL_glue (s : List Char) (rest : List (List Char)) (hs : s ≠ [])
    (hrest : ∀ t ∈ rest, t ≠ []) : joinSpL (s :: rest) = glue s (joinSpL rest) := by
  cases rest with
  | nil =>
    show s = glue s []
    unfold glue
    rw [if_neg hs, if_pos rfl]
  | cons t r =>
    show s ++ ' ' :: joinSpL (t :: r) = glue s (joinSpL (t :: r))
    unfold glue
    rw [if_neg hs, if_neg (joinSpL_ne_nil (t :: r) hrest (by simp))]

/-- Gluing re-associates over a space-joined group. -/
theorem glue_assoc (j s x : List Char) (hj : j ≠ []) (hs : s ≠ []) :
    glue j (glue s x) = glue (j ++ ' ' :: s) x := by
  have hjs : j ++ ' ' :: s ≠ [] := by simp
  by_cases hx : x = []
  · subst hx
    have h1 : glue s [] = s := by
      unfold glue
      rw [if_neg hs, if_pos rfl]
    rw [h1]
    unfold glue
    rw [if_neg hj, if_neg hs, if_neg hjs, if_pos rfl]
  · have h1 : glue s x = s ++ ' ' :: x := by
      unfold glue
      rw [if_neg hs, if_neg hx]
    rw [h1]
    have h2 : s ++ ' ' :: x ≠ [] := by simp
    unfold glue
    rw [if_neg hj, if_neg h2, if_neg hjs, if_neg hx]
    simp

/-- Core invariant of the chunk loop on clean sentences: all produced chunks are non-empty, a non-empty accumulator guarantees output, and joining the chunks equals gluing the trimmed accumulator onto the joined remaining sentences. -/
theorem chunks_main (m : Nat) : ∀ (ss : List (List Char)) (cur : List Char),
    (∀ s ∈ ss, CleanSent s) → ShapeCur cur →
    (∀ c ∈ chunksGo m ss cur [], c ≠ []) ∧
    (cur ≠ [] → chunksGo m ss cur [] ≠ []) ∧
    joinSpL (chunksGo m ss cur []) = glue (trimL cur) (joinSpL ss) := by
  intro ss
  induction ss with
  | nil =>
    intro cur _ hshape
    rcases hshape with rfl | ⟨j, rfl, hj⟩
    · refine ⟨?_, ?_, ?_⟩
      · intro c hc
        simp [chunksGo, trimL] at hc
      · intro h
        exact absurd rfl h
      · show joinSpL (chunksGo m [] [] []) = glue (trimL []) (joinSpL [])
        simp [chunksGo, trimL, glue, joinSpL]
    · have htr : trimL (j ++ [' ']) = j := trimL_clean_append j hj
      have hres : chunksGo m [] (j ++ [' ']) [] = [j] := by
        unfold chunksGo
        rw [htr, if_neg hj.1]
        rfl
      refine ⟨?_, ?_, ?_⟩
      · intro c hc
        rw [hres] at hc
        have : c = j := by simpa using hc
        subst this
        exact hj.1
      · intro _
        rw [hres]
        simp
      · rw [hres, htr]
        show joinSpL [j] = glue j []
        unfold glue
        rw [if_neg hj.1, if_pos rfl]
        rfl
  | cons s rest ih =>
    intro cur hss hshape
    have hcs : CleanSent s := hss s (by simp)
    have hrest : ∀ t ∈ rest, CleanSent t := fun t ht => hss t (by simp [ht])
    have hrestne : ∀ t ∈ rest, t ≠ [] := fun t ht => (hrest t ht).1
    unfold chunksGo
    split
    · rename_i hfit
      rcases hshape with rfl | ⟨j, rfl, hj⟩
      · have hsimp : ([] : List Char) ++ s ++ [' '] = s ++ [' '] := by simp
        rw [hsimp]
        obtain ⟨h1, h2, h3⟩ := ih (s ++ [' ']) hrest (Or.inr ⟨s, rfl, hcs⟩)
        refine ⟨h1, fun _ => h2 (by simp), ?_⟩
        rw [h3, trimL_clean_append s hcs]
        show glue s (joinSpL rest) = glue (trimL []) (joinSpL (s :: rest))
        have : trimL ([] : List Char) = [] := rfl
        rw [this]
        rw [← joinSpL_glue s rest hcs.1 hrestne]
        unfold glue
        rw [if_pos rfl]
      · have hjs : CleanSent (j ++ ' ' :: s) := by
          refine ⟨by simp, ?_, ?_⟩
          · intro c hc
            rw [head?_append_left _ _ hj.1] at hc
            exact hj.2.1 c hc
          · intro c hc
            rw [getLast?_append_right _ _ (by simp)] at hc
            have : (' ' :: s).getLast? = s.getLast? := by
              cases hs : s with
              | nil => exact absurd hs hcs.1
              | cons a as => rw [List.getLast?_cons_cons]
            rw [this] at hc
            exact hcs.2.2 c hc
        have hsimp : (j ++ [' ']) ++ s ++ [' '] = (j ++ ' ' :: s) ++ [' '] := by simp
        rw [hsimp]
        obtain ⟨h1, h2, h3⟩ := ih ((j ++ ' ' :: s) ++ [' ']) hrest (Or.inr ⟨j ++ ' ' :: s, rfl, hjs⟩)
        refine ⟨h1, fun _ => h2 (by simp), ?_⟩
        rw [h3, trimL_clean_append _ hjs, trimL_clean_append _ hj]
        rw [← glue_assoc j s (joinSpL rest) hj.1 hcs.1]
        rw [← joinSpL_glue s rest hcs.1 hrestne]
    · rename_i hnofit
      rw [chunksGo_append m rest (s ++ [' ']) (if cur = [] then [] else [] ++ [trimL cur])]
      obtain ⟨k1, k2, k3⟩ := ih (s ++ [' ']) hrest (Or.inr ⟨s, rfl, hcs⟩)
      have hk3 : joinSpL (chunksGo m rest (s ++ [' ']) []) = joinSpL (s :: rest) := by
        rw [k3, trimL_clean_append s hcs, ← joinSpL_glue s rest hcs.1 hrestne]
      rcases hshape with rfl | ⟨j, rfl, hj⟩
      · rw [if_pos rfl]
        refine ⟨by simpa using k1, fun h => absurd rfl h, ?_⟩
        rw [List.nil_append, hk3]
        show joinSpL (s :: rest) = glue (trimL []) (joinSpL (s :: rest))
        have : trimL ([] : List Char) = [] := rfl
        rw [this]
        unfold glue
        rw [if_pos rfl]
      · have hcurne : j ++ [' '] ≠ ([] : List Char) := by simp
        rw [if_neg hcurne]
        have htr : trimL (j ++ [' ']) = j := trimL_clean_append j hj
        rw [List.nil_append, htr]
        refine ⟨?_, ?_, ?_⟩
        · intro c hc
          rcases List.mem_append.1 hc with hc | hc
          · have : c = j := by simpa using hc
            subst this
            exact hj.1
          · exact k1 c hc
        · intro _
          simp
        · show joinSpL (j :: chunksGo m rest (s ++ [' ']) []) = glue j (joinSpL (s :: rest))
          rw [joinSpL_glue j _ hj.1 k1, hk3]

/-- For normalized text, joining the chunks of the chunker with single spaces reproduces the text. -/
theorem joinSpL_splitChunksL (m : Nat) (l : List Char) (h : NormedL l) :
    joinSpL (splitChunksL m l) = l := by
  obtain ⟨hP1, hch, hhead, hlast⟩ := h
  cases l with
  | nil =>
    show joinSpL (chunksGo m [[]] [] []) = []
    unfold chunksGo
    split <;> (simp only [chunksGo]; decide)
  | cons x xs =>
    have hclean : ∀ s ∈ splitSentencesL (x :: xs), CleanSent s := by
      refine split_clean (x :: xs).length (x :: xs) [] le_rfl hch ?_ ?_ ?_ hlast
      · intro _
        exact ⟨by simp, hhead⟩
      · intro c hc
        cases hc
      · intro habs
        exact absurd habs (by simp)
    obtain ⟨_, _, h3⟩ := chunks_main m (splitSentencesL (x :: xs)) [] hclean (Or.inl rfl)
    unfold splitChunksL
    rw [h3]
    have htr : trimL ([] : List Char) = [] := rfl
    rw [htr]
    have hglue : glue [] (joinSpL (splitSentencesL (x :: xs)))
        = joinSpL (splitSentencesL (x :: xs)) := by
      unfold glue
      rw [if_pos rfl]
    rw [hglue]
    simpa using split_join (x :: xs).length (x :: xs) [] le_rfl hP1 hch

/-- C2: for every text that is a fixpoint of the normalizer `cleanText` and every `maxChars`, joining the chunk sequence of `splitIntoChunks` with single spaces reproduces the text exactly. -/
theorem C2_reconstruction (text : String) (maxChars : Nat) (h : cleanText text = text) :
    joinSpace (splitIntoChunks text maxChars) = text := by
  have hdata : cleanL text.data = text.data := congrArg String.data h
  have hnorm : NormedL text.data := by
    rw [← hdata]
    exact NormedL_cleanL text.data
  have key := joinSpL_splitChunksL maxChars text.data hnorm
  unfold joinSpace splitIntoChunks
  simp only [List.map_map]
  have hcomp : (String.data ∘ fun l => (⟨l⟩ : String)) = id := by
    funext l
    rfl
  rw [hcomp, List.map_id, key]

/-- Witness for C2 on a concrete normalized text. -/
theorem C2_reconstruction_witness :
    cleanText "Hello world. This is a test." = "Hello world. This is a test." ∧
    joinSpace (splitIntoChunks "Hello world. This is a test." 30) =
      "Hello world. This is a test." :=
  ⟨by decide, C2_reconstruction "Hello world. This is a test." 30 (by decide)⟩
